import Mathlib

/-!
Shallow embedding of the `i2u` formatting library (`src/fmt/mod.rs`).

The library's radix functions are one-line wrappers around Rust's
`format!` machinery (`core::fmt`), so the embedding models that
machinery for fixed-width integers: a value of a `bits`-wide integer
type formatted with `{:b}` / `{:o}` / `{:x}` / `{:X}` renders the
base-`b` digits of its two's-complement bit pattern (the unsigned value
`n mod 2^bits`), and a `width` with optional `0` flag pads on the left
with `'0'` or `' '` up to the minimum width, never truncating
(`Formatter::pad_integral`).
-/

namespace I2u

/-- Character for a single digit as emitted by the Rust formatter:
`'0'`-`'9'` for values below ten, then `'a'`-`'f'` or `'A'`-`'F'`
according to the case flag. -/
def digitChar (upper : Bool) (d : Nat) : Char :=
  if d < 10 then Char.ofNat (48 + d)
  else if upper then Char.ofNat (55 + d)
  else Char.ofNat (87 + d)

/-- Digit-accumulating loop of the radix renderer: repeatedly divides by
the base, prepending the digit characters of `n` to `acc`. `fuel` only
bounds the recursion; any `fuel > n` gives the true digit string. -/
def natToDigitsAux (b : Nat) (u : Bool) : Nat → Nat → List Char → List Char
  | 0, _, acc => acc
  | fuel + 1, n, acc =>
    if n < b then digitChar u n :: acc
    else natToDigitsAux b u fuel (n / b) (digitChar u (n % b) :: acc)

/-- Base-`b` rendering of the natural number `n` (most significant digit
first; `0` renders as `"0"`). -/
def digitsOf (b : Nat) (u : Bool) (n : Nat) : List Char :=
  natToDigitsAux b u (n + 1) n []

/-- Two's-complement bit pattern of the integer `n` stored in a
`bits`-wide machine integer, as an unsigned value. -/
def twosComp (bits : Nat) (n : Int) : Nat :=
  (n % ((2 ^ bits : Nat) : Int)).toNat

/-- Padding step of `core::fmt::Formatter::pad_integral` for a numeric
body `s` with no sign and no prefix: if `s` already has at least `width`
characters it is returned unchanged (no truncation), otherwise
`width - length` copies of the fill character are prepended. -/
def padIntegral (fill : Char) (width : Nat) (s : String) : String :=
  if width ≤ s.length then s
  else ⟨List.replicate (width - s.length) fill ++ s.data⟩

/-- Embeds `octal` (src/fmt/mod.rs:140-142), `format!("{:o}", o)`. -/
def octal (bits : Nat) (o : Int) : String :=
  ⟨digitsOf 8 false (twosComp bits o)⟩

/-- Embeds `binary` (src/fmt/mod.rs:161-163), `format!("{:b}", b)`. -/
def binary (bits : Nat) (b : Int) : String :=
  ⟨digitsOf 2 false (twosComp bits b)⟩

/-- Unpadded `{:x}` rendering (the width-0 body used by the padded hex
functions; the library itself exposes only padded hex variants). -/
def lower_hex (bits : Nat) (h : Int) : String :=
  ⟨digitsOf 16 false (twosComp bits h)⟩

/-- Unpadded `{:X}` rendering (the width-0 body used by the padded hex
functions). -/
def upper_hex (bits : Nat) (h : Int) : String :=
  ⟨digitsOf 16 true (twosComp bits h)⟩

/-- Embeds `binary_zero_pad` (src/fmt/mod.rs:183-185),
`format!("{:0width$b}", b, width = N)`. -/
def binary_zero_pad (N bits : Nat) (b : Int) : String :=
  padIntegral '0' N (binary bits b)

/-- Embeds `binary_pad` (src/fmt/mod.rs:207-209),
`format!("{:width$b}", b, width = N)`. -/
def binary_pad (N bits : Nat) (b : Int) : String :=
  padIntegral ' ' N (binary bits b)

/-- Embeds `lower_hex_pad` (src/fmt/mod.rs:228-230),
`format!("{:width$x}", h, width = N)`. -/
def lower_hex_pad (N bits : Nat) (h : Int) : String :=
  padIntegral ' ' N (lower_hex bits h)

/-- Embeds `upper_hex_pad` (src/fmt/mod.rs:249-251),
`format!("{:width$X}", h, width = N)`. -/
def upper_hex_pad (N bits : Nat) (h : Int) : String :=
  padIntegral ' ' N (upper_hex bits h)

/-- Embeds `lower_hex_zeropad` (src/fmt/mod.rs:270-272),
`format!("{:0width$x}", h, width = N)`. -/
def lower_hex_zeropad (N bits : Nat) (h : Int) : String :=
  padIntegral '0' N (lower_hex bits h)

/-- Embeds `upper_hex_zeropad` (src/fmt/mod.rs:291-293),
`format!("{:0width$X}", h, width = N)`. -/
def upper_hex_zeropad (N bits : Nat) (h : Int) : String :=
  padIntegral '0' N (upper_hex bits h)

/-- Chunking loop of `itertools`: groups the characters of `l` into
consecutive runs of `n` characters, the last run possibly shorter.
`fuel` only bounds the recursion; with `0 < n`, any `fuel ≥ l.length`
gives the true chunk list. -/
def chunksOfAux (n : Nat) : Nat → List Char → List (List Char)
  | 0, _ => []
  | _, [] => []
  | fuel + 1, l => l.take n :: chunksOfAux n fuel (l.drop n)

/-- Chunk list of `l` with chunk size `n` (meaningful for `0 < n`). -/
def chunksOf (n : Nat) (l : List Char) : List (List Char) :=
  chunksOfAux n l.length l

/-- Join of `itertools`: concatenation of the groups with `sep` inserted
between every adjacent pair of groups, none before the first group and
none after the last. -/
def joinSep (sep : List Char) : List (List Char) → List Char
  | [] => []
  | [c] => c
  | c :: cs => c ++ (sep ++ joinSep sep cs)

/-- Embeds `chunk_join` (src/fmt/mod.rs:307-320). The two fatal
failures are modelled as `none`: first the function's own
`assert!(!separator.as_ref().is_empty())` at line 312, then the
`assert!(size != 0)` that `itertools`' documented `chunks` adaptor
performs when called with a zero chunk size (its docs: panics if the
chunk size is zero). Otherwise the characters are chunked and joined
with the separator. -/
def chunk_join (string : String) (chunk_size : Nat) (separator : String) :
    Option String :=
  if separator.data.isEmpty then none
  else if chunk_size = 0 then none
  else some ⟨joinSep separator.data (chunksOf chunk_size string.data)⟩

/-- Leading-space removal used to state the `binary_pad` / `binary`
relation from the spec. -/
def trimStart (s : String) : String :=
  ⟨s.data.dropWhile (fun c => c == ' ')⟩

/-- Numeric value of a digit character emitted by `digitChar`. -/
def charToDigit (c : Char) : Nat :=
  if 97 ≤ c.toNat then c.toNat - 87
  else if 65 ≤ c.toNat then c.toNat - 55
  else c.toNat - 48

/-- Base-`b` numeric value of a digit string (most significant first). -/
def listVal (b : Nat) (l : List Char) : Nat :=
  l.foldl (fun a c => a * b + charToDigit c) 0

/-- Record value with named fields as seen by the derived `Debug`
implementation: a type name and a list of (field name, rendered field
value) pairs. -/
structure DebugRecord where
  name : String
  fields : List (String × String)

/-- Embeds `debug_pretty` (src/fmt/mod.rs:120-122), `format!("{:#?}", d)`,
for a record value with named single-line field values: Rust's canonical
pretty-debug builder (`Formatter::debug_struct` in alternate mode) emits
the type name, an opening brace, then each field on its own line
indented by four spaces and terminated by a comma, then the closing
brace on its own line at the outer indentation. The repository's own doc
test (src/fmt/mod.rs:107-118) pins this layout. -/
def debug_pretty (r : DebugRecord) : String :=
  if r.fields.isEmpty then r.name
  else
    r.name ++ " \x7b\n" ++
      String.join (r.fields.map fun p => "    " ++ p.1 ++ ": " ++ p.2 ++ ",\n") ++
      "\x7d"

theorem natToDigitsAux_acc (b : Nat) (u : Bool) :
    ∀ fuel n acc,
      natToDigitsAux b u fuel n acc = natToDigitsAux b u fuel n [] ++ acc
  | 0, _, _ => rfl
  | fuel + 1, n, acc => by
    simp only [natToDigitsAux]
    split
    · rfl
    · rw [natToDigitsAux_acc b u fuel (n / b) (digitChar u (n % b) :: acc),
        natToDigitsAux_acc b u fuel (n / b) [digitChar u (n % b)]]
      simp

theorem natToDigitsAux_fuel (b : Nat) (u : Bool) (hb : 2 ≤ b) :
    ∀ n fuel fuel' acc, n < fuel → n < fuel' →
      natToDigitsAux b u fuel n acc = natToDigitsAux b u fuel' n acc := by
  intro n
  induction n using Nat.strong_induction_on with
  | _ n ih =>
    intro fuel fuel' acc h h'
    obtain ⟨f, rfl⟩ : ∃ f, fuel = f + 1 := ⟨fuel - 1, by omega⟩
    obtain ⟨f', rfl⟩ : ∃ f, fuel' = f + 1 := ⟨fuel' - 1, by omega⟩
    simp only [natToDigitsAux]
    split
    · rfl
    · rename_i hnb
      have hdiv : n / b < n := Nat.div_lt_self (by omega) (by omega)
      exact ih (n / b) hdiv f f' _ (by omega) (by omega)

theorem digitsOf_eq (b : Nat) (u : Bool) (hb : 2 ≤ b) (n : Nat) :
    digitsOf b u n =
      if n < b then [digitChar u n]
      else digitsOf b u (n / b) ++ [digitChar u (n % b)] := by
  unfold digitsOf
  rw [natToDigitsAux]
  split
  · rfl
  · rename_i h
    rw [natToDigitsAux_acc]
    have hdiv : n / b < n := Nat.div_lt_self (by omega) (by omega)
    rw [natToDigitsAux_fuel b u hb (n / b) n (n / b + 1) [] (by omega) (by omega)]

theorem digitsOf_ne_nil (b : Nat) (u : Bool) (hb : 2 ≤ b) (n : Nat) :
    digitsOf b u n ≠ [] := by
  rw [digitsOf_eq b u hb]
  split
  · simp
  · simp

theorem mem_digitsOf (b : Nat) (u : Bool) (hb : 2 ≤ b) :
    ∀ n c, c ∈ digitsOf b u n → ∃ d, d < b ∧ c = digitChar u d := by
  intro n
  induction n using Nat.strong_induction_on with
  | _ n ih =>
    intro c hc
    rw [digitsOf_eq b u hb] at hc
    split at hc
    · rename_i h
      rw [List.mem_singleton] at hc
      exact ⟨n, h, hc⟩
    · rename_i h
      rw [List.mem_append, List.mem_singleton] at hc
      rcases hc with hc | hc
      · exact ih (n / b) (Nat.div_lt_self (by omega) (by omega)) c hc
      · exact ⟨n % b, Nat.mod_lt _ (by omega), hc⟩

theorem charToDigit_digitChar : ∀ d < 16, ∀ u, charToDigit (digitChar u d) = d := by
  decide

theorem listVal_go (b : Nat) (u : Bool) (hb : 2 ≤ b) (hb16 : b ≤ 16) :
    ∀ n a,
      (digitsOf b u n).foldl (fun a c => a * b + charToDigit c) a =
        a * b ^ (digitsOf b u n).length + n := by
  intro n
  induction n using Nat.strong_induction_on with
  | _ n ih =>
    intro a
    rw [digitsOf_eq b u hb]
    split
    · rename_i h
      simp only [List.foldl_cons, List.foldl_nil, List.length_singleton, pow_one]
      rw [charToDigit_digitChar n (by omega) u]
    · rename_i h
      rw [List.foldl_append, List.length_append,
        ih (n / b) (Nat.div_lt_self (by omega) (by omega)) a]
      simp only [List.foldl_cons, List.foldl_nil, List.length_singleton]
      rw [charToDigit_digitChar (n % b)
        (by have := Nat.mod_lt n (y := b) (by omega); omega) u]
      have h1 : (a * b ^ (digitsOf b u (n / b)).length + n / b) * b + n % b =
          a * (b ^ (digitsOf b u (n / b)).length * b) + (b * (n / b) + n % b) := by ring
      rw [h1, Nat.div_add_mod, pow_succ]

theorem listVal_digitsOf (b : Nat) (u : Bool) (hb : 2 ≤ b) (hb16 : b ≤ 16)
    (n : Nat) : listVal b (digitsOf b u n) = n := by
  have := listVal_go b u hb hb16 n 0
  simpa [listVal] using this

theorem padIntegral_eq (fill : Char) (N : Nat) (s : String) :
    padIntegral fill N s = ⟨List.replicate (N - s.length) fill⟩ ++ s := by
  unfold padIntegral
  split
  · rename_i h
    have h0 : N - s.length = 0 := by omega
    rw [h0]
    cases s
    rfl
  · cases s
    rfl

theorem padIntegral_length (fill : Char) (N : Nat) (s : String) :
    (padIntegral fill N s).length = max N s.length := by
  unfold padIntegral
  split
  · rename_i h
    omega
  · rename_i h
    show (List.replicate (N - s.length) fill ++ s.data).length = _
    rw [List.length_append, List.length_replicate]
    have : s.data.length = s.length := rfl
    omega

theorem padIntegral_zero (fill : Char) (s : String) :
    padIntegral fill 0 s = s := by
  unfold padIntegral
  split
  · rfl
  · rename_i h
    omega

theorem digitChar_not_dash : ∀ d < 16, ∀ u, digitChar u d ≠ '-' := by decide

theorem digitChar_not_space : ∀ d < 16, ∀ u, (digitChar u d == ' ') = false := by
  decide

theorem mem_digitsOf_sub (b : Nat) (u : Bool) (hb : 2 ≤ b) (n : Nat)
    (S : List Char) (hS : ∀ d < b, digitChar u d ∈ S) :
    ∀ c ∈ digitsOf b u n, c ∈ S := by
  intro c hc
  obtain ⟨d, hd, rfl⟩ := mem_digitsOf b u hb n c hc
  exact hS d hd

theorem digitsOf_no_dash (b : Nat) (u : Bool) (hb : 2 ≤ b) (hb16 : b ≤ 16)
    (n : Nat) : ∀ c ∈ digitsOf b u n, c ≠ '-' := by
  intro c hc
  obtain ⟨d, hd, rfl⟩ := mem_digitsOf b u hb n c hc
  exact digitChar_not_dash d (by omega) u

theorem dropWhile_space_replicate (k : Nat) (l : List Char)
    (hl : ∀ c ∈ l, (c == ' ') = false) :
    (List.replicate k ' ' ++ l).dropWhile (fun c => c == ' ') = l := by
  induction k with
  | zero =>
    rw [List.replicate, List.nil_append]
    cases l with
    | nil => rfl
    | cons c cs =>
      rw [List.dropWhile_cons, hl c (by simp)]
      simp
  | succ k ih =>
    rw [List.replicate_succ, List.cons_append, List.dropWhile_cons]
    simp only [beq_self_eq_true, if_true]
    exact ih

theorem chunksOfAux_fuel (n : Nat) (hn : 0 < n) :
    ∀ k l fuel fuel', l.length ≤ k → l.length ≤ fuel → l.length ≤ fuel' →
      chunksOfAux n fuel l = chunksOfAux n fuel' l := by
  intro k
  induction k using Nat.strong_induction_on with
  | _ k ih =>
    intro l fuel fuel' hk hf hf'
    cases l with
    | nil =>
      cases fuel <;> cases fuel' <;> rfl
    | cons c cs =>
      have hlen : (c :: cs).length = cs.length + 1 := rfl
      obtain ⟨f, rfl⟩ : ∃ f, fuel = f + 1 := ⟨fuel - 1, by omega⟩
      obtain ⟨f', rfl⟩ : ∃ f, fuel' = f + 1 := ⟨fuel' - 1, by omega⟩
      simp only [chunksOfAux]
      congr 1
      have hk1 : k - 1 < k := by omega
      refine ih (k - 1) hk1 ((c :: cs).drop n) f f' ?_ ?_ ?_ <;>
        · rw [List.length_drop]
          omega

theorem chunksOf_cons (n : Nat) (hn : 0 < n) (l : List Char) (hl : l ≠ []) :
    chunksOf n l = l.take n :: chunksOf n (l.drop n) := by
  cases l with
  | nil => exact absurd rfl hl
  | cons c cs =>
    show chunksOfAux n (cs.length + 1) (c :: cs) = _
    simp only [chunksOfAux]
    congr 1
    refine chunksOfAux_fuel n hn cs.length ((c :: cs).drop n) cs.length
      ((c :: cs).drop n).length ?_ ?_ le_rfl <;>
      · simp only [List.length_drop, List.length_cons]
        omega

theorem chunksOf_flatten (n : Nat) (hn : 0 < n) :
    ∀ k l, l.length ≤ k → (chunksOf n l).flatten = l := by
  intro k
  induction k with
  | zero =>
    intro l hl
    cases l with
    | nil => rfl
    | cons c cs => simp at hl
  | succ k ih =>
    intro l hl
    cases l with
    | nil => rfl
    | cons c cs =>
      rw [chunksOf_cons n hn _ (by simp), List.flatten_cons,
        ih ((c :: cs).drop n) (by rw [List.length_drop]; simp at hl ⊢; omega)]
      exact List.take_append_drop n (c :: cs)

theorem chunksOf_le (n : Nat) (hn : 0 < n) :
    ∀ k l, l.length ≤ k → ∀ c ∈ chunksOf n l, c.length ≤ n := by
  intro k
  induction k with
  | zero =>
    intro l hl c hc
    cases l with
    | nil => simp [chunksOf, chunksOfAux] at hc
    | cons x xs => simp at hl
  | succ k ih =>
    intro l hl c hc
    cases l with
    | nil => simp [chunksOf, chunksOfAux] at hc
    | cons x xs =>
      rw [chunksOf_cons n hn _ (by simp)] at hc
      rcases List.mem_cons.mp hc with rfl | hc
      · rw [List.length_take]
        omega
      · exact ih ((x :: xs).drop n)
          (by rw [List.length_drop]; simp at hl ⊢; omega) c hc

theorem chunksOf_dropLast (n : Nat) (hn : 0 < n) :
    ∀ k l, l.length ≤ k → ∀ c ∈ (chunksOf n l).dropLast, c.length = n := by
  intro k
  induction k with
  | zero =>
    intro l hl c hc
    cases l with
    | nil => simp [chunksOf, chunksOfAux] at hc
    | cons x xs => simp at hl
  | succ k ih =>
    intro l hl c hc
    cases l with
    | nil => simp [chunksOf, chunksOfAux] at hc
    | cons x xs =>
      rw [chunksOf_cons n hn _ (by simp)] at hc
      cases hrest : chunksOf n ((x :: xs).drop n) with
      | nil =>
        rw [hrest] at hc
        simp at hc
      | cons r rs =>
        rw [hrest, List.dropLast_cons₂] at hc
        have hdrop : (x :: xs).drop n ≠ [] := by
          intro hd
          rw [hd] at hrest
          exact absurd hrest.symm (by simp [chunksOf, chunksOfAux])
        have hlong : n < (x :: xs).length := by
          by_contra hcon
          exact hdrop (List.drop_eq_nil_of_le (by omega))
        rcases List.mem_cons.mp hc with rfl | hc
        · rw [List.length_take]
          omega
        · rw [← hrest] at hc
          exact ih ((x :: xs).drop n)
            (by rw [List.length_drop]; simp at hl ⊢; omega) c hc

theorem padIntegral_forall (P : Char → Prop) (fill : Char) (N : Nat) (s : String)
    (hf : P fill) (hs : ∀ c ∈ s.data, P c) :
    ∀ c ∈ (padIntegral fill N s).data, P c := by
  intro c hc
  rw [padIntegral_eq] at hc
  rw [String.data_append] at hc
  rw [List.mem_append] at hc
  rcases hc with hc | hc
  · rw [List.eq_of_mem_replicate hc]
    exact hf
  · exact hs c hc

theorem digitsOf_no_space (b : Nat) (u : Bool) (hb : 2 ≤ b) (hb16 : b ≤ 16)
    (n : Nat) : ∀ c ∈ digitsOf b u n, (c == ' ') = false := by
  intro c hc
  obtain ⟨d, hd, rfl⟩ := mem_digitsOf b u hb n c hc
  exact digitChar_not_space d (by omega) u

theorem twosComp_emod (bits : Nat) (n : Int) :
    twosComp bits (n % ((2 ^ bits : Nat) : Int)) = twosComp bits n := by
  unfold twosComp
  rw [Int.emod_emod_of_dvd n dvd_rfl]

theorem twosComp_of_nonneg (bits : Nat) (n : Int) (h0 : 0 ≤ n)
    (hlt : n < ((2 ^ bits : Nat) : Int)) : twosComp bits n = n.toNat := by
  unfold twosComp
  rw [Int.emod_eq_of_lt h0 hlt]

theorem intercalate_go_data (s : String) :
    ∀ (l : List String) (acc : String),
      (String.intercalate.go acc s l).data =
        acc.data ++ (l.map fun a => s.data ++ a.data).flatten
  | [], acc => by simp [String.intercalate.go]
  | a :: as, acc => by
    show (String.intercalate.go (acc ++ s ++ a) s as).data = _
    rw [intercalate_go_data s as (acc ++ s ++ a)]
    simp [String.data_append, List.append_assoc]

theorem intercalate_data (s : String) (a : String) (l : List String) :
    (String.intercalate s (a :: l)).data =
      a.data ++ (l.map fun x => s.data ++ x.data).flatten := by
  show (String.intercalate.go a s l).data = _
  exact intercalate_go_data s l a

/-- C1: the padded radix functions never truncate. Each padded output
equals `width - length` fill characters (`'0'` for the zeropad variants,
`' '` for the pad variants) prepended to the natural unpadded rendering
(when the natural rendering is at least `width` characters long that
prefix is empty and the output is the unpadded rendering), the output
length is `max width (natural length)`, and width `0` yields the
unpadded rendering. -/
theorem C1_padding_contract (N bits : Nat) (n : Int) :
    (binary_zero_pad N bits n =
      (⟨List.replicate (N - (binary bits n).length) '0'⟩ : String) ++
        binary bits n) ∧
    (binary_pad N bits n =
      (⟨List.replicate (N - (binary bits n).length) ' '⟩ : String) ++
        binary bits n) ∧
    (lower_hex_pad N bits n =
      (⟨List.replicate (N - (lower_hex bits n).length) ' '⟩ : String) ++
        lower_hex bits n) ∧
    (upper_hex_pad N bits n =
      (⟨List.replicate (N - (upper_hex bits n).length) ' '⟩ : String) ++
        upper_hex bits n) ∧
    (lower_hex_zeropad N bits n =
      (⟨List.replicate (N - (lower_hex bits n).length) '0'⟩ : String) ++
        lower_hex bits n) ∧
    (upper_hex_zeropad N bits n =
      (⟨List.replicate (N - (upper_hex bits n).length) '0'⟩ : String) ++
        upper_hex bits n) ∧
    (binary_zero_pad N bits n).length = max N (binary bits n).length ∧
    (binary_pad N bits n).length = max N (binary bits n).length ∧
    (lower_hex_pad N bits n).length = max N (lower_hex bits n).length ∧
    (upper_hex_pad N bits n).length = max N (upper_hex bits n).length ∧
    (lower_hex_zeropad N bits n).length = max N (lower_hex bits n).length ∧
    (upper_hex_zeropad N bits n).length = max N (upper_hex bits n).length ∧
    binary_zero_pad 0 bits n = binary bits n ∧
    binary_pad 0 bits n = binary bits n ∧
    lower_hex_pad 0 bits n = lower_hex bits n ∧
    upper_hex_pad 0 bits n = upper_hex bits n ∧
    lower_hex_zeropad 0 bits n = lower_hex bits n ∧
    upper_hex_zeropad 0 bits n = upper_hex bits n :=
  ⟨padIntegral_eq '0' N (binary bits n),
    padIntegral_eq ' ' N (binary bits n),
    padIntegral_eq ' ' N (lower_hex bits n),
    padIntegral_eq ' ' N (upper_hex bits n),
    padIntegral_eq '0' N (lower_hex bits n),
    padIntegral_eq '0' N (upper_hex bits n),
    padIntegral_length '0' N (binary bits n),
    padIntegral_length ' ' N (binary bits n),
    padIntegral_length ' ' N (lower_hex bits n),
    padIntegral_length ' ' N (upper_hex bits n),
    padIntegral_length '0' N (lower_hex bits n),
    padIntegral_length '0' N (upper_hex bits n),
    padIntegral_zero '0' (binary bits n),
    padIntegral_zero ' ' (binary bits n),
    padIntegral_zero ' ' (lower_hex bits n),
    padIntegral_zero ' ' (upper_hex bits n),
    padIntegral_zero '0' (lower_hex bits n),
    padIntegral_zero '0' (upper_hex bits n)⟩

/-- C2: for positive chunk size and non-empty separator, `chunk_join`
partitions the characters left-to-right into consecutive groups of at
most `chunk_size` characters (only the final group may be shorter) and
returns the groups joined with the separator between every adjacent pair
and nowhere else; in particular
`chunk_join "FEEDC0FFEE" 2 " " = "FE ED C0 FF EE"`. -/
theorem C2_chunk_partition (text sep : String) (n : Nat)
    (hn : 0 < n) (hsep : sep.data ≠ []) :
    (chunksOf n text.data).flatten = text.data ∧
    (∀ c ∈ chunksOf n text.data, c.length ≤ n) ∧
    (∀ c ∈ (chunksOf n text.data).dropLast, c.length = n) ∧
    chunk_join text n sep = some ⟨joinSep sep.data (chunksOf n text.data)⟩ ∧
    chunk_join "FEEDC0FFEE" 2 " " = some "FE ED C0 FF EE" := by
  refine ⟨chunksOf_flatten n hn text.data.length text.data le_rfl,
    chunksOf_le n hn text.data.length text.data le_rfl,
    chunksOf_dropLast n hn text.data.length text.data le_rfl, ?_, by decide⟩
  obtain ⟨c0, cs0, hd⟩ : ∃ c0 cs0, sep.data = c0 :: cs0 := by
    cases hdd : sep.data with
    | nil => exact absurd hdd hsep
    | cons c0 cs0 => exact ⟨c0, cs0, rfl⟩
  simp [chunk_join, hd, hn.ne']

/-- C2 witness: the partition contract evaluated at the concrete example
from the spec. -/
theorem C2_chunk_partition_witness :
    chunk_join "FEEDC0FFEE" 2 " " = some "FE ED C0 FF EE" :=
  (C2_chunk_partition "FEEDC0FFEE" " " 2 (by decide) (by decide)).2.2.2.2

/-- C3: calling `chunk_join` with an empty separator is a fatal
precondition failure (the `assert!` at src/fmt/mod.rs:312, modelled as
`none`) for every non-empty text and every chunk size; no string is
returned. -/
theorem C3_empty_separator_fatal (text : String) (n : Nat)
    (_htext : text.data ≠ []) : chunk_join text n "" = none := rfl

/-- C3 witness: the empty-separator failure at a concrete call. -/
theorem C3_empty_separator_fatal_witness : chunk_join "abc" 2 "" = none :=
  C3_empty_separator_fatal "abc" 2 (by decide)

/-- C9: `chunk_join` fails fatally on an empty separator even for empty
text, for every chunk size: the separator assertion at
src/fmt/mod.rs:312 is checked before the text is examined. -/
theorem C9_empty_text_empty_separator (n : Nat) :
    chunk_join "" n "" = none := rfl

/-- C10: with a zero chunk size and a non-empty separator, `chunk_join`
fails fatally for every text (the panic of the underlying `itertools`
`chunks` primitive, modelled as `none`); it never returns a string. -/
theorem C10_zero_chunk_size (text sep : String) (hsep : sep.data ≠ []) :
    chunk_join text 0 sep = none := by
  obtain ⟨c0, cs0, hd⟩ : ∃ c0 cs0, sep.data = c0 :: cs0 := by
    cases hdd : sep.data with
    | nil => exact absurd hdd hsep
    | cons c0 cs0 => exact ⟨c0, cs0, rfl⟩
  simp [chunk_join, hd]

/-- C10 witness: the zero-chunk-size failure at a concrete call. -/
theorem C10_zero_chunk_size_witness : chunk_join "abc" 0 "-" = none :=
  C10_zero_chunk_size "abc" "-" (by decide)

/-- C4: a negative value of a `bits`-wide integer type is rendered by
every radix function as the two's-complement bit pattern, i.e. with the
same digits as the unsigned value `n mod 2^bits`, and no `'-'` sign ever
appears in any radix output. -/
theorem C4_twos_complement (bits : Nat) (n : Int) (_hneg : n < 0)
    (_hrep : -((2 ^ (bits - 1) : Nat) : Int) ≤ n) :
    binary bits n = binary bits (n % ((2 ^ bits : Nat) : Int)) ∧
    octal bits n = octal bits (n % ((2 ^ bits : Nat) : Int)) ∧
    lower_hex bits n = lower_hex bits (n % ((2 ^ bits : Nat) : Int)) ∧
    upper_hex bits n = upper_hex bits (n % ((2 ^ bits : Nat) : Int)) ∧
    (∀ N, binary_zero_pad N bits n =
      binary_zero_pad N bits (n % ((2 ^ bits : Nat) : Int))) ∧
    (∀ N, binary_pad N bits n =
      binary_pad N bits (n % ((2 ^ bits : Nat) : Int))) ∧
    (∀ N, lower_hex_pad N bits n =
      lower_hex_pad N bits (n % ((2 ^ bits : Nat) : Int))) ∧
    (∀ N, upper_hex_pad N bits n =
      upper_hex_pad N bits (n % ((2 ^ bits : Nat) : Int))) ∧
    (∀ N, lower_hex_zeropad N bits n =
      lower_hex_zeropad N bits (n % ((2 ^ bits : Nat) : Int))) ∧
    (∀ N, upper_hex_zeropad N bits n =
      upper_hex_zeropad N bits (n % ((2 ^ bits : Nat) : Int))) ∧
    (∀ c ∈ (binary bits n).data, c ≠ '-') ∧
    (∀ c ∈ (octal bits n).data, c ≠ '-') ∧
    (∀ c ∈ (lower_hex bits n).data, c ≠ '-') ∧
    (∀ c ∈ (upper_hex bits n).data, c ≠ '-') ∧
    (∀ N, ∀ c ∈ (binary_zero_pad N bits n).data, c ≠ '-') ∧
    (∀ N, ∀ c ∈ (binary_pad N bits n).data, c ≠ '-') ∧
    (∀ N, ∀ c ∈ (lower_hex_pad N bits n).data, c ≠ '-') ∧
    (∀ N, ∀ c ∈ (upper_hex_pad N bits n).data, c ≠ '-') ∧
    (∀ N, ∀ c ∈ (lower_hex_zeropad N bits n).data, c ≠ '-') ∧
    (∀ N, ∀ c ∈ (upper_hex_zeropad N bits n).data, c ≠ '-') := by
  have d2 : ∀ c ∈ digitsOf 2 false (twosComp bits n), c ≠ '-' :=
    digitsOf_no_dash 2 false (by omega) (by omega) _
  have d8 : ∀ c ∈ digitsOf 8 false (twosComp bits n), c ≠ '-' :=
    digitsOf_no_dash 8 false (by omega) (by omega) _
  have d16l : ∀ c ∈ digitsOf 16 false (twosComp bits n), c ≠ '-' :=
    digitsOf_no_dash 16 false (by omega) (by omega) _
  have d16u : ∀ c ∈ digitsOf 16 true (twosComp bits n), c ≠ '-' :=
    digitsOf_no_dash 16 true (by omega) (by omega) _
  refine ⟨by simp only [binary, twosComp_emod],
    by simp only [octal, twosComp_emod],
    by simp only [lower_hex, twosComp_emod],
    by simp only [upper_hex, twosComp_emod],
    fun N => by simp only [binary_zero_pad, binary, twosComp_emod],
    fun N => by simp only [binary_pad, binary, twosComp_emod],
    fun N => by simp only [lower_hex_pad, lower_hex, twosComp_emod],
    fun N => by simp only [upper_hex_pad, upper_hex, twosComp_emod],
    fun N => by simp only [lower_hex_zeropad, lower_hex, twosComp_emod],
    fun N => by simp only [upper_hex_zeropad, upper_hex, twosComp_emod],
    d2, d8, d16l, d16u,
    fun N => padIntegral_forall (fun c => c ≠ '-') '0' N (binary bits n)
      (by decide) d2,
    fun N => padIntegral_forall (fun c => c ≠ '-') ' ' N (binary bits n)
      (by decide) d2,
    fun N => padIntegral_forall (fun c => c ≠ '-') ' ' N (lower_hex bits n)
      (by decide) d16l,
    fun N => padIntegral_forall (fun c => c ≠ '-') ' ' N (upper_hex bits n)
      (by decide) d16u,
    fun N => padIntegral_forall (fun c => c ≠ '-') '0' N (lower_hex bits n)
      (by decide) d16l,
    fun N => padIntegral_forall (fun c => c ≠ '-') '0' N (upper_hex bits n)
      (by decide) d16u⟩

/-- C4 witness: an 8-bit `-1` renders as its bit pattern. -/
theorem C4_twos_complement_witness :
    binary 8 (-1) = binary 8 ((-1) % ((2 ^ 8 : Nat) : Int)) :=
  (C4_twos_complement 8 (-1) (by decide) (by decide)).1

/-- C5: `binary_pad` with its leading spaces removed equals `binary`,
and mapping `binary_pad` at width 3 over `[0, ..., 7]` yields exactly
the eight space-padded binary strings from the spec. -/
theorem C5_binary_pad_trim (N bits : Nat) (n : Int) :
    trimStart (binary_pad N bits n) = binary bits n ∧
    [(0 : Int), 1, 2, 3, 4, 5, 6, 7].map (binary_pad 3 32) =
      ["  0", "  1", " 10", " 11", "100", "101", "110", "111"] := by
  constructor
  · rw [show binary_pad N bits n = _ from padIntegral_eq ' ' N (binary bits n)]
    show (⟨(List.replicate (N - (binary bits n).length) ' ' ++
        (binary bits n).data).dropWhile fun c => c == ' '⟩ : String) =
      binary bits n
    rw [dropWhile_space_replicate (N - (binary bits n).length)
      (binary bits n).data
      (digitsOf_no_space 2 false (by omega) (by omega) (twosComp bits n))]
  · decide

/-- C6: the hex functions render in the case named by the function —
every output character of the upper variants is a digit, an uppercase
hex letter or the fill character, and likewise with lowercase letters
for the lower variants — with no prefix; concretely
`upper_hex_zeropad 2 255 = "FF"` and `lower_hex_zeropad 2 10 = "0a"`. -/
theorem C6_hex_case (N bits : Nat) (n : Int) :
    (∀ c ∈ (upper_hex_zeropad N bits n).data, c ∈ "0123456789ABCDEF".data) ∧
    (∀ c ∈ (upper_hex_pad N bits n).data, c ∈ " 0123456789ABCDEF".data) ∧
    (∀ c ∈ (lower_hex_zeropad N bits n).data, c ∈ "0123456789abcdef".data) ∧
    (∀ c ∈ (lower_hex_pad N bits n).data, c ∈ " 0123456789abcdef".data) ∧
    upper_hex_zeropad 2 32 255 = "FF" ∧
    lower_hex_zeropad 2 32 10 = "0a" := by
  have hu : ∀ c ∈ digitsOf 16 true (twosComp bits n),
      c ∈ "0123456789ABCDEF".data :=
    mem_digitsOf_sub 16 true (by omega) _ _ (by decide)
  have hu2 : ∀ c ∈ digitsOf 16 true (twosComp bits n),
      c ∈ " 0123456789ABCDEF".data :=
    mem_digitsOf_sub 16 true (by omega) _ _ (by decide)
  have hl : ∀ c ∈ digitsOf 16 false (twosComp bits n),
      c ∈ "0123456789abcdef".data :=
    mem_digitsOf_sub 16 false (by omega) _ _ (by decide)
  have hl2 : ∀ c ∈ digitsOf 16 false (twosComp bits n),
      c ∈ " 0123456789abcdef".data :=
    mem_digitsOf_sub 16 false (by omega) _ _ (by decide)
  exact ⟨padIntegral_forall (· ∈ "0123456789ABCDEF".data) '0' N
      (upper_hex bits n) (by decide) hu,
    padIntegral_forall (· ∈ " 0123456789ABCDEF".data) ' ' N
      (upper_hex bits n) (by decide) hu2,
    padIntegral_forall (· ∈ "0123456789abcdef".data) '0' N
      (lower_hex bits n) (by decide) hl,
    padIntegral_forall (· ∈ " 0123456789abcdef".data) ' ' N
      (lower_hex bits n) (by decide) hl2,
    by decide, by decide⟩

/-- C7: `octal` and `binary` render the value in base 8 and base 2 with
no radix prefix: the digit string evaluates back to the value, every
character is a base digit, the characters `'b'`, `'o'`, `'x'` never
occur (so no `0b`/`0o`/`0x` prefix), and `octal 8 = "10"`,
`binary 8 = "1000"`. -/
theorem C7_radix_rendering (bits : Nat) (n : Int) (h0 : 0 ≤ n)
    (hlt : n < ((2 ^ bits : Nat) : Int)) :
    listVal 8 (octal bits n).data = n.toNat ∧
    listVal 2 (binary bits n).data = n.toNat ∧
    (∀ c ∈ (octal bits n).data, c ∈ "01234567".data) ∧
    (∀ c ∈ (binary bits n).data, c ∈ "01".data) ∧
    'b' ∉ (octal bits n).data ∧ 'o' ∉ (octal bits n).data ∧
    'x' ∉ (octal bits n).data ∧
    'b' ∉ (binary bits n).data ∧ 'o' ∉ (binary bits n).data ∧
    'x' ∉ (binary bits n).data ∧
    octal 32 8 = "10" ∧ binary 32 8 = "1000" := by
  have ho : ∀ c ∈ (octal bits n).data, c ∈ "01234567".data :=
    mem_digitsOf_sub 8 false (by omega) _ _ (by decide)
  have hb : ∀ c ∈ (binary bits n).data, c ∈ "01".data :=
    mem_digitsOf_sub 2 false (by omega) _ _ (by decide)
  have hv : twosComp bits n = n.toNat := twosComp_of_nonneg bits n h0 hlt
  refine ⟨?_, ?_, ho, hb,
    fun h => absurd (ho _ h) (by decide), fun h => absurd (ho _ h) (by decide),
    fun h => absurd (ho _ h) (by decide), fun h => absurd (hb _ h) (by decide),
    fun h => absurd (hb _ h) (by decide), fun h => absurd (hb _ h) (by decide),
    by decide, by decide⟩
  · show listVal 8 (digitsOf 8 false (twosComp bits n)) = n.toNat
    rw [hv]
    exact listVal_digitsOf 8 false (by omega) (by omega) n.toNat
  · show listVal 2 (digitsOf 2 false (twosComp bits n)) = n.toNat
    rw [hv]
    exact listVal_digitsOf 2 false (by omega) (by omega) n.toNat

/-- C7 witness: the concrete renderings of `8`. -/
theorem C7_radix_rendering_witness : octal 32 8 = "10" ∧ binary 32 8 = "1000" :=
  (C7_radix_rendering 32 8 (by decide) (by decide)).2.2.2.2.2.2.2.2.2.2

theorem data_mk (l : List Char) : (String.mk l).data = l := rfl

theorem debug_lines_shift :
    ∀ fs : List (String × String),
      '\n' :: ((fs.map (String.data ∘ fun p =>
            "    " ++ p.1 ++ ": " ++ p.2 ++ ",\n")).flatten ++ ['\x7d']) =
        (fs.map ((fun x => '\n' :: x.data) ∘ fun p =>
            "    " ++ p.1 ++ ": " ++ p.2 ++ ",")).flatten ++ ['\n', '\x7d']
  | [] => rfl
  | f :: fs => by
    have ih := debug_lines_shift fs
    simp only [List.map_cons, List.flatten_cons, Function.comp,
      String.data_append, List.append_assoc, List.cons_append,
      List.nil_append]
    rw [ih]

/-- C8: for every record value with named fields, `debug_pretty`
produces the canonical multi-line pretty-debug rendering: the opening
line holds the type name and the opening brace, every field sits on its
own line indented by exactly four spaces and followed by a trailing
comma, and the closing brace is on its own line at the outer
indentation; in particular a one-field record `AStruct` with value `12`
renders as the string from the repository's doc test. -/
theorem C8_debug_pretty_layout (r : DebugRecord) (h : r.fields ≠ []) :
    debug_pretty r =
      String.intercalate "\n"
        ((r.name ++ " \x7b") ::
          ((r.fields.map fun p => "    " ++ p.1 ++ ": " ++ p.2 ++ ",") ++
            ["\x7d"])) ∧
    debug_pretty ⟨"AStruct", [("value", "12")]⟩ =
      "AStruct \x7b\n    value: 12,\n\x7d" := by
  refine ⟨?_, by decide⟩
  obtain ⟨name, fields⟩ := r
  cases fields with
  | nil => exact absurd rfl h
  | cons f fs =>
    apply String.ext
    show (name ++ " \x7b\n" ++
        String.join ((f :: fs).map fun p => "    " ++ p.1 ++ ": " ++ p.2 ++ ",\n") ++
        "\x7d").data = _
    rw [intercalate_data, String.join_eq]
    have e1 : (" \x7b\n" : String).data = [' ', '\x7b', '\n'] := rfl
    have e2 : (" \x7b" : String).data = [' ', '\x7b'] := rfl
    have e3 : ("\x7d" : String).data = ['\x7d'] := rfl
    have e4 : ("\n" : String).data = ['\n'] := rfl
    have e5 : (",\n" : String).data = [',', '\n'] := rfl
    have e6 : ("," : String).data = [','] := rfl
    simp only [String.data_append, data_mk, e1, e2, e3, e4, e5, e6,
      List.map_map, List.map_append, List.map_cons, List.map_nil,
      List.flatten_append, List.flatten_cons, List.flatten_nil,
      List.append_assoc, List.cons_append, List.nil_append,
      List.append_nil, List.singleton_append, Function.comp]
    rw [debug_lines_shift fs]

/-- C8 witness: the layout at the repository's doc-test record. -/
theorem C8_debug_pretty_layout_witness :
    debug_pretty ⟨"AStruct", [("value", "12")]⟩ =
      "AStruct \x7b\n    value: 12,\n\x7d" :=
  (C8_debug_pretty_layout ⟨"AStruct", [("value", "12")]⟩ (by decide)).2

end I2u
